import Mathlib

/-!
# Verification of git-hours-rs (`src/main.rs`)

A shallow embedding of the two core functions of the program,
`get_commit_times_by_author` and `estimate_hours`, together with the
surrounding `main` glue, and proofs of the specification's claims about
them.

Modelling conventions:

* `gix::date::Time` becomes the structure `Time` below; its `i64` seconds
  and `i32` offset are idealized as `Int` (timestamp arithmetic never
  overflows `i64` for ascending sequences of realistic epochs; a debug
  overflow would panic rather than return a value and is out of scope).
* `f64` arithmetic in `estimate_hours` is modelled by exact rationals
  (`ℚ`).  Every operation the function performs on the default-sized
  inputs of interest is exact in `f64` as well.  `f64::round` rounds
  half away from zero (`f64round`), and the final `as u32` cast from a
  float saturates into the `u32` range (`u32cast`).
* The repository accessor is external: `find_commit` becomes a function
  `Repo := Nat → Option Commit` (`none` = unresolvable commit), and the
  branch-reference enumeration is abstracted into the list `heads` of
  starting commit ids handed to the traversal.  A commit's fallible
  `author()`/`time()` pair becomes `Option (String × Time)`.
* `HashSet` becomes a list used as a set (membership test before every
  insertion), `HashMap` an association list, and the explicit work stack
  a list whose head corresponds to the end of the Rust `Vec` (so
  `pop` = head, `extend(parents)` = `parents.reverse ++ stack`).
* The `while let` loop is given explicit fuel; every claim proved is an
  invariant that holds for all fuel values.
-/

/-- `gix::date::Time`: seconds since the Unix epoch plus a timezone
offset.  Only `seconds` participates in arithmetic.  The derived Rust
`Ord` compares fields in declaration order, i.e. lexicographically by
`seconds` first, then `offset`. -/
structure Time where
  seconds : Int
  offset : Int
deriving DecidableEq, Repr

/-- The derived lexicographic order of `gix::date::Time`, used by
`times.sort()`. -/
def timeLe (a b : Time) : Prop :=
  a.seconds < b.seconds ∨ (a.seconds = b.seconds ∧ a.offset ≤ b.offset)

instance : DecidableRel timeLe := fun a b =>
  decidable_of_iff (a.seconds < b.seconds ∨ (a.seconds = b.seconds ∧ a.offset ≤ b.offset))
    Iff.rfl

instance : IsTotal Time timeLe :=
  ⟨fun a b => by
    rcases lt_trichotomy a.seconds b.seconds with h | h | h
    · exact Or.inl (Or.inl h)
    · rcases le_total a.offset b.offset with ho | ho
      · exact Or.inl (Or.inr ⟨h, ho⟩)
      · exact Or.inr (Or.inr ⟨h.symm, ho⟩)
    · exact Or.inr (Or.inl h)⟩

instance : IsTrans Time timeLe :=
  ⟨fun a b c hab hbc => by
    rcases hab with h1 | ⟨e1, o1⟩
    · rcases hbc with h2 | ⟨e2, o2⟩
      · exact Or.inl (h1.trans h2)
      · exact Or.inl (e2 ▸ h1)
    · rcases hbc with h2 | ⟨e2, o2⟩
      · exact Or.inl (e1 ▸ h2)
      · exact Or.inr ⟨e1.trans e2, o1.trans o2⟩⟩

/-- A commit object as seen through `gix`: its parent ids, and its
author email and authored time when those resolve (`commit.author()`
and `author.time()` can each fail; failure of either is modelled as
`none`). -/
structure Commit where
  parents : List Nat
  author : Option (String × Time)

/-- `repo.find_commit`: the repository object store.  `none` models an
unresolvable (corrupt or missing) commit object. -/
abbrev Repo := Nat → Option Commit

/-- The parsed command-line arguments relevant to the core.  The
`branch` option only selects which reference prefix the external
accessor enumerates, so it is absorbed into the abstract `heads` list;
`path` names the repository to open. -/
structure Args where
  max_commit_diff : Nat
  first_commit_add : Nat
  merge_commits : Bool
  path : String

/-- The traversal state of `get_commit_times_by_author`: the visited
set (kept as the list of commit ids in insertion order, newest first)
and the author → timestamps map (kept as an association list in
insertion order). -/
structure TState where
  visited : List Nat
  times_by_author : List (String × List Time)

/-- The map update of the traversal body: push onto an existing
author's vector, or insert a fresh singleton vector on first sight of
the author key. -/
def addTime (a : String) (t : Time) : List (String × List Time) → List (String × List Time)
  | [] => [(a, [t])]
  | (b, ts) :: rest => if b = a then (b, ts ++ [t]) :: rest else (b, ts) :: addTime a t rest

/-- Association-list lookup, modelling `HashMap` key lookup. -/
def lookupA (a : String) : List (String × List Time) → Option (List Time)
  | [] => none
  | (b, ts) :: rest => if b = a then some ts else lookupA a rest

/-- The `while let Some(id) = stack.pop()` loop of
`get_commit_times_by_author`, with explicit fuel.  Mirrors the source:
resolve the commit (skip on failure), skip if already visited,
otherwise mark visited, push all parents unconditionally, determine
`is_merge` as parent count > 1, and attribute the timestamp when the
author resolves and the merge filter passes. -/
def loop (repo : Repo) (merge_commits : Bool) : Nat → List Nat → TState → TState
  | 0, _, s => s
  | _ + 1, [], s => s
  | fuel + 1, id :: stack, s =>
    match repo id with
    | none => loop repo merge_commits fuel stack s
    | some commit =>
      if id ∈ s.visited then
        loop repo merge_commits fuel stack s
      else
        let times :=
          match commit.author with
          | some (email, time) =>
            if commit.parents.length ≤ 1 || merge_commits then
              addTime email time s.times_by_author
            else
              s.times_by_author
          | none => s.times_by_author
        loop repo merge_commits fuel (commit.parents.reverse ++ stack)
          ⟨id :: s.visited, times⟩

/-- The outer `for head in heads` loop: a fresh stack per head, with
the visited set and the author map shared across heads. -/
def run_traversal (merge_commits : Bool) (repo : Repo) (heads : List Nat) (fuel : Nat) :
    TState :=
  heads.foldl (fun s h => loop repo merge_commits fuel [h] s) ⟨[], []⟩

/-- `get_commit_times_by_author`: run the traversal from every head,
then sort every author's timestamp vector (`times.sort()`, stable,
under the derived lexicographic order of `Time`). -/
def get_commit_times_by_author (args : Args) (repo : Repo) (heads : List Nat) (fuel : Nat) :
    List (String × List Time) :=
  (run_traversal args.merge_commits repo heads fuel).times_by_author.map
    (fun p => (p.1, List.insertionSort timeLe p.2))

/-- Whether the commit `id` is a qualifying commit for author `a`: it
resolves, its author resolves to `a`, and it passes the merge filter. -/
def qualifies (repo : Repo) (merge_commits : Bool) (a : String) (id : Nat) : Bool :=
  match repo id with
  | some c =>
    match c.author with
    | some (e, _) => e == a && (decide (c.parents.length ≤ 1) || merge_commits)
    | none => false
  | none => false

/-- `f64::round`: round half away from zero. -/
def f64round (q : ℚ) : ℤ := if 0 ≤ q then ⌊q + 1/2⌋ else ⌈q - 1/2⌉

/-- The `as u32` cast of an `f64` whose value is the integer `i`:
saturate into `[0, 2^32 - 1]`. -/
def u32cast (i : ℤ) : ℕ := min i.toNat (2 ^ 32 - 1)

/-- The window fold of `estimate_hours`: for each consecutive pair,
add the gap in hours when the gap in minutes is strictly below
`max_commit_diff`, otherwise add `first_commit_add` minutes in hours. -/
def sessionHours (args : Args) : List Time → ℚ
  | time :: next_time :: rest =>
    (if ((next_time.seconds - time.seconds : ℤ) : ℚ) / 60 < (args.max_commit_diff : ℚ) then
      (((next_time.seconds - time.seconds : ℤ) : ℚ) / 60) / 60
    else
      (args.first_commit_add : ℚ) / 60) + sessionHours args (next_time :: rest)
  | _ => 0

/-- `estimate_hours`: 0 for fewer than two timestamps, otherwise the
base of 10 hours plus the window fold, rounded and cast to `u32`. -/
def estimate_hours (args : Args) (times : List Time) : ℕ :=
  if times.length < 2 then 0
  else u32cast (f64round (10 + sessionHours args times))

/-- The per-window contribution as the spec phrases it ("the gap in
hours when the gap in minutes is strictly less than max_commit_diff,
otherwise first_commit_add / 60 hours"), over an explicit pair. -/
def specGapContribution (args : Args) (p : Time × Time) : ℚ :=
  if ((p.2.seconds - p.1.seconds : ℤ) : ℚ) / 60 < (args.max_commit_diff : ℚ) then
    (((p.2.seconds - p.1.seconds : ℤ) : ℚ) / 60) / 60
  else
    (args.first_commit_add : ℚ) / 60

/-- Modelled from the spec: the value the spec says `estimate_hours`
returns for a sequence of length ≥ 2 — `round(10.0 + sum over
consecutive pairs of the gap contribution)`, with no mention of any
range cap. -/
def specEstimate (args : Args) (times : List Time) : ℤ :=
  f64round (10 + ((times.zip times.tail).map (specGapContribution args)).sum)

/-- Ascending timestamp sequence: consecutive absolute time values are
non-decreasing. -/
def ascending : List Time → Prop
  | t1 :: t2 :: rest => t1.seconds ≤ t2.seconds ∧ ascending (t2 :: rest)
  | _ => True

instance instDecidableAscending : ∀ l : List Time, Decidable (ascending l)
  | [] => isTrue trivial
  | [_] => isTrue trivial
  | t1 :: t2 :: rest =>
    letI := instDecidableAscending (t2 :: rest)
    decidable_of_iff (t1.seconds ≤ t2.seconds ∧ ascending (t2 :: rest)) Iff.rfl

/-- A session boundary: some consecutive gap of at least
`max_commit_diff` minutes. -/
abbrev hasBoundary (args : Args) (times : List Time) : Prop :=
  ∃ p ∈ times.zip times.tail,
    (args.max_commit_diff : ℚ) ≤ ((p.2.seconds - p.1.seconds : ℤ) : ℚ) / 60

/-- The world `main` runs in: whether `<p>/.git/shallow` exists for a
path string `p` (the process working directory is `"."`), whether
`gix::open(args.path)` succeeds, and the opened repository with its
enumerated branch heads. -/
structure World where
  shallowMarker : String → Bool
  repoOpens : Bool
  repo : Repo
  heads : List Nat

/-- Report-row order of `authors.sort_by_key(|(_, _, time)| *time)`:
by estimated hours. -/
def rowLe (x y : String × Nat × Nat) : Prop := x.2.2 ≤ y.2.2

instance : DecidableRel rowLe := fun x y => decidable_of_iff (x.2.2 ≤ y.2.2) Iff.rfl

/-- One report row per author: author email, commit count, estimated
hours (rendered by `main` as `{author}: {c} commits, {h} hours`). -/
def report_rows (args : Args) (tba : List (String × List Time)) : List (String × Nat × Nat) :=
  tba.map (fun p => (p.1, p.2.length, estimate_hours args p.2))

/-- `main`: fail if `".git/shallow"` exists — a path relative to the
process working directory, not to `args.path` — then open the
repository at `args.path`, traverse, estimate, sort rows by hours and
print them.  The returned list models the printed report lines. -/
def main_run (args : Args) (w : World) (fuel : Nat) :
    Except String (List (String × Nat × Nat)) :=
  if w.shallowMarker "." then
    .error "Cannot analyze shallow copies. Please run `git fetch --unshallow` before continuing."
  else if w.repoOpens = false then
    .error "failed to open git repository"
  else
    .ok (List.insertionSort rowLe
      (report_rows args (get_commit_times_by_author args w.repo w.heads fuel)))

/-- The invariant relating the author map to the visited set during
traversal: every stored timestamp vector is non-empty, and an author
key is present exactly when some visited commit qualifies for it. -/
def timesInv (repo : Repo) (mc : Bool) (s : TState) : Prop :=
  (∀ a l, lookupA a s.times_by_author = some l → l ≠ []) ∧
  (∀ a, (lookupA a s.times_by_author).isSome = true ↔
     ∃ id ∈ s.visited, qualifies repo mc a id = true)

/-- Default configuration (`max_commit_diff` 120, `first_commit_add`
120, merge commits included, current directory). -/
def exArgs : Args := ⟨120, 120, true, "."⟩

/-- The spec's worked example: one author's timestamps at minute
offsets [0, 30, 500], i.e. seconds 0, 1800, 30000. -/
def exTimes : List Time := [⟨0, 0⟩, ⟨1800, 0⟩, ⟨30000, 0⟩]

/-- A two-commit repository: commit 0 (head) has parent 1; both are
authored by "a", at seconds 100 and 50 respectively. -/
def repo0 : Repo := fun id =>
  if id = 0 then some ⟨[1], some ("a", ⟨100, 0⟩)⟩
  else if id = 1 then some ⟨[], some ("a", ⟨50, 0⟩)⟩
  else none

/-- Configuration driving every window into the session-boundary
branch (`max_commit_diff` 0) with the largest expressible
`first_commit_add` (`u32::MAX` minutes). -/
def cexArgs : Args := ⟨0, 4294967295, true, "."⟩

/-- 62 ascending timestamps one second apart: 61 session boundaries,
each adding 4294967295/60 hours, for a total above `u32::MAX`. -/
def cexTimes : List Time :=
  [⟨0, 0⟩, ⟨1, 0⟩, ⟨2, 0⟩, ⟨3, 0⟩, ⟨4, 0⟩, ⟨5, 0⟩, ⟨6, 0⟩, ⟨7, 0⟩, ⟨8, 0⟩, ⟨9, 0⟩, ⟨10, 0⟩,
   ⟨11, 0⟩, ⟨12, 0⟩, ⟨13, 0⟩, ⟨14, 0⟩, ⟨15, 0⟩, ⟨16, 0⟩, ⟨17, 0⟩, ⟨18, 0⟩, ⟨19, 0⟩, ⟨20, 0⟩,
   ⟨21, 0⟩, ⟨22, 0⟩, ⟨23, 0⟩, ⟨24, 0⟩, ⟨25, 0⟩, ⟨26, 0⟩, ⟨27, 0⟩, ⟨28, 0⟩, ⟨29, 0⟩, ⟨30, 0⟩,
   ⟨31, 0⟩, ⟨32, 0⟩, ⟨33, 0⟩, ⟨34, 0⟩, ⟨35, 0⟩, ⟨36, 0⟩, ⟨37, 0⟩, ⟨38, 0⟩, ⟨39, 0⟩, ⟨40, 0⟩,
   ⟨41, 0⟩, ⟨42, 0⟩, ⟨43, 0⟩, ⟨44, 0⟩, ⟨45, 0⟩, ⟨46, 0⟩, ⟨47, 0⟩, ⟨48, 0⟩, ⟨49, 0⟩, ⟨50, 0⟩,
   ⟨51, 0⟩, ⟨52, 0⟩, ⟨53, 0⟩, ⟨54, 0⟩, ⟨55, 0⟩, ⟨56, 0⟩, ⟨57, 0⟩, ⟨58, 0⟩, ⟨59, 0⟩, ⟨60, 0⟩,
   ⟨61, 0⟩]

/-- A one-commit repository whose snapshot carries a shallow marker;
used to exercise `main` when `--path` names it. -/
def bugRepo : Repo := fun id => if id = 0 then some ⟨[], some ("a", ⟨100, 0⟩)⟩ else none

/-- Arguments naming a repository away from the working directory. -/
def bugArgs : Args := ⟨120, 120, true, "/repos/shallow"⟩

/-- A world where the repository at `/repos/shallow` is shallow but
the process working directory is not: the marker exists exactly at
`/repos/shallow/.git/shallow`. -/
def bugWorld : World := ⟨fun p => p == "/repos/shallow", true, bugRepo, [0]⟩

/-! ## Traversal invariants -/

theorem loop_visited_nodup (repo : Repo) (mc : Bool) :
    ∀ fuel stack s, s.visited.Nodup → (loop repo mc fuel stack s).visited.Nodup := by
  intro fuel
  induction fuel with
  | zero => intro _ s h; exact h
  | succ n ih =>
    intro stack s h
    cases stack with
    | nil => exact h
    | cons id rest =>
      cases hr : repo id with
      | none =>
        simp only [loop, hr]
        exact ih rest s h
      | some commit =>
        simp only [loop, hr]
        by_cases hv : id ∈ s.visited
        · rw [if_pos hv]
          exact ih rest s h
        · rw [if_neg hv]
          exact ih _ _ (List.nodup_cons.mpr ⟨hv, h⟩)

theorem loop_visited_indep (repo : Repo) (mc1 mc2 : Bool) :
    ∀ fuel stack s1 s2, s1.visited = s2.visited →
      (loop repo mc1 fuel stack s1).visited = (loop repo mc2 fuel stack s2).visited := by
  intro fuel
  induction fuel with
  | zero => intro _ s1 s2 h; exact h
  | succ n ih =>
    intro stack s1 s2 h
    cases stack with
    | nil => exact h
    | cons id rest =>
      cases hr : repo id with
      | none =>
        simp only [loop, hr]
        exact ih rest s1 s2 h
      | some commit =>
        simp only [loop, hr]
        rw [h]
        by_cases hv : id ∈ s2.visited
        · rw [if_pos hv, if_pos hv]
          exact ih rest s1 s2 h
        · rw [if_neg hv, if_neg hv]
          exact ih _ _ _ rfl

/-- C1: the commit-graph traversal of `get_commit_times_by_author`
processes each reachable commit at most once.  The visited list records
commit ids in the order they are expanded (insertion into the visited
set and pushing the commit's parents happen at the same program point,
guarded by the membership test), so its `Nodup` property states exactly
that no commit — however many branch heads or merge paths reach it — is
ever expanded, or has its parents re-pushed, a second time. -/
theorem get_commit_times_visited_once (args : Args) (repo : Repo) (heads : List Nat)
    (fuel : Nat) : (run_traversal args.merge_commits repo heads fuel).visited.Nodup := by
  have key : ∀ hs (s : TState), s.visited.Nodup →
      (List.foldl (fun s h => loop repo args.merge_commits fuel [h] s) s hs).visited.Nodup := by
    intro hs
    induction hs with
    | nil => intro s h; exact h
    | cons hd tl ih =>
      intro s h
      exact ih _ (loop_visited_nodup repo args.merge_commits fuel [hd] s h)
  exact key heads ⟨[], []⟩ List.nodup_nil

/-- C2: with the repository and starting heads fixed, running the
traversal with `merge_commits = false` visits exactly the same commits,
in the same order, as running it with `merge_commits = true`: parents
are pushed unconditionally, so the merge filter affects only which
timestamps are attributed, never which commits are traversed. -/
theorem visited_independent_of_merge_commits (repo : Repo) (heads : List Nat) (fuel : Nat) :
    (run_traversal true repo heads fuel).visited
      = (run_traversal false repo heads fuel).visited := by
  have key : ∀ hs (s1 s2 : TState), s1.visited = s2.visited →
      (List.foldl (fun s h => loop repo true fuel [h] s) s1 hs).visited
        = (List.foldl (fun s h => loop repo false fuel [h] s) s2 hs).visited := by
    intro hs
    induction hs with
    | nil => intro s1 s2 h; exact h
    | cons hd tl ih =>
      intro s1 s2 h
      exact ih _ _ (loop_visited_indep repo true false fuel [hd] s1 s2 h)
  exact key heads ⟨[], []⟩ ⟨[], []⟩ rfl

/-! ## Session estimator -/

/-- C6: an author with fewer than two qualifying timestamps always
estimates to exactly 0 hours, for every configuration. -/
theorem estimate_hours_short_zero (args : Args) (times : List Time)
    (h : times.length < 2) : estimate_hours args times = 0 := by
  simp [estimate_hours, h]

theorem estimate_hours_short_zero_witness :
    ([⟨0, 0⟩] : List Time).length < 2 ∧ estimate_hours exArgs [⟨0, 0⟩] = 0 :=
  ⟨by decide, estimate_hours_short_zero exArgs [⟨0, 0⟩] (by decide)⟩

/-- C5: with `max_commit_diff` = 120 and `first_commit_add` = 120,
and any values of the remaining configuration, timestamps at seconds
0, 1800, 30000 estimate to exactly 13 hours:
10 + 0.5 + 2 = 12.5, rounded to 13. -/
theorem estimate_hours_example_thirteen (mc : Bool) (p : String) :
    estimate_hours ⟨120, 120, mc, p⟩ exTimes = 13 := by
  norm_num [estimate_hours, exTimes, sessionHours, u32cast, f64round]
  decide

theorem sessionHours_nonneg (args : Args) :
    ∀ times, ascending times → 0 ≤ sessionHours args times := by
  intro times
  induction times with
  | nil => intro _; simp [sessionHours]
  | cons t rest ih =>
    cases rest with
    | nil => intro _; simp [sessionHours]
    | cons n r =>
      intro h
      obtain ⟨h1, h2⟩ : t.seconds ≤ n.seconds ∧ ascending (n :: r) := h
      have hrec := ih h2
      have hd : (0 : ℚ) ≤ ((n.seconds - t.seconds : ℤ) : ℚ) / 60 := by
        apply div_nonneg _ (by norm_num)
        exact_mod_cast sub_nonneg.mpr h1
      simp only [sessionHours]
      apply add_nonneg _ hrec
      split
      · exact div_nonneg hd (by norm_num)
      · positivity

/-- C9: any author with at least two qualifying commits, in ascending
order, is always credited at least the 10-hour base: every window
contributes a non-negative amount on top of it. -/
theorem estimate_hours_ge_ten (args : Args) (times : List Time)
    (h2 : 2 ≤ times.length) (ha : ascending times) :
    10 ≤ estimate_hours args times := by
  have hs := sessionHours_nonneg args times ha
  rw [estimate_hours, if_neg (by omega)]
  have hr : (10 : ℤ) ≤ f64round (10 + sessionHours args times) := by
    rw [f64round, if_pos (by linarith)]
    apply Int.le_floor.mpr
    push_cast
    linarith
  rw [u32cast]
  have h1 : 10 ≤ (f64round (10 + sessionHours args times)).toNat := by omega
  exact le_min h1 (by norm_num)

theorem estimate_hours_ge_ten_witness :
    2 ≤ ([⟨0, 0⟩, ⟨1800, 0⟩] : List Time).length ∧ ascending [⟨0, 0⟩, ⟨1800, 0⟩] ∧
      10 ≤ estimate_hours exArgs [⟨0, 0⟩, ⟨1800, 0⟩] :=
  ⟨by decide, by decide, estimate_hours_ge_ten exArgs [⟨0, 0⟩, ⟨1800, 0⟩] (by decide) (by decide)⟩

theorem sessionHours_mono_fca (mcd : Nat) (mc : Bool) (p : String) (a b : Nat) (hab : a ≤ b) :
    ∀ times, sessionHours ⟨mcd, a, mc, p⟩ times ≤ sessionHours ⟨mcd, b, mc, p⟩ times := by
  intro times
  induction times with
  | nil => simp [sessionHours]
  | cons t rest ih =>
    cases rest with
    | nil => simp [sessionHours]
    | cons n r =>
      simp only [sessionHours]
      refine add_le_add ?_ ih
      split
      · exact le_refl _
      · have hq : (a : ℚ) ≤ (b : ℚ) := by exact_mod_cast hab
        exact (div_le_div_iff_of_pos_right (by norm_num)).mpr hq

theorem f64round_mono {q r : ℚ} (h : q ≤ r) : f64round q ≤ f64round r := by
  rw [f64round, f64round]
  by_cases hq : 0 ≤ q
  · rw [if_pos hq, if_pos (le_trans hq h)]
    exact Int.floor_le_floor (by linarith)
  · rw [if_neg hq]
    by_cases hr0 : 0 ≤ r
    · rw [if_pos hr0]
      have h1 : (⌈q - 1/2⌉ : ℤ) ≤ 0 := Int.ceil_le.mpr (by push_cast; linarith)
      have h2 : (0 : ℤ) ≤ ⌊r + 1/2⌋ := Int.le_floor.mpr (by push_cast; linarith)
      omega
    · rw [if_neg hr0]
      exact Int.ceil_le_ceil (by linarith)

/-- C7: with the timestamp sequence, `max_commit_diff` and the merge
flag held fixed, raising `first_commit_add` never decreases the
estimate; stated, as the claim does, for ascending sequences with at
least one session boundary. -/
theorem estimate_hours_mono_first_commit_add (mcd a b : Nat) (mc : Bool) (p : String)
    (times : List Time) (hab : a ≤ b) (ha : ascending times)
    (hb : hasBoundary ⟨mcd, a, mc, p⟩ times) :
    estimate_hours ⟨mcd, a, mc, p⟩ times ≤ estimate_hours ⟨mcd, b, mc, p⟩ times := by
  by_cases hlen : times.length < 2
  · simp [estimate_hours, hlen]
  · rw [estimate_hours, estimate_hours, if_neg hlen, if_neg hlen]
    have hs := sessionHours_mono_fca mcd mc p a b hab times
    have hround :
        f64round (10 + sessionHours ⟨mcd, a, mc, p⟩ times)
          ≤ f64round (10 + sessionHours ⟨mcd, b, mc, p⟩ times) :=
      f64round_mono (by linarith)
    have htn := Int.toNat_le_toNat hround
    rw [u32cast, u32cast]
    omega

theorem estimate_hours_mono_witness :
    (60 ≤ 120 ∧ ascending [⟨0, 0⟩, ⟨30000, 0⟩] ∧
        hasBoundary ⟨120, 60, true, "."⟩ [⟨0, 0⟩, ⟨30000, 0⟩]) ∧
      estimate_hours ⟨120, 60, true, "."⟩ [⟨0, 0⟩, ⟨30000, 0⟩]
        ≤ estimate_hours ⟨120, 120, true, "."⟩ [⟨0, 0⟩, ⟨30000, 0⟩] := by
  have hbd : hasBoundary ⟨120, 60, true, "."⟩ [⟨0, 0⟩, ⟨30000, 0⟩] :=
    ⟨(⟨0, 0⟩, ⟨30000, 0⟩), by decide, by norm_num⟩
  exact ⟨⟨by norm_num, by decide, hbd⟩,
    estimate_hours_mono_first_commit_add 120 60 120 true "." [⟨0, 0⟩, ⟨30000, 0⟩]
      (by norm_num) (by decide) hbd⟩

theorem sessionHours_eq_spec_sum (args : Args) :
    ∀ times, sessionHours args times
      = ((times.zip times.tail).map (specGapContribution args)).sum := by
  intro times
  induction times with
  | nil => simp [sessionHours]
  | cons t rest ih =>
    cases rest with
    | nil => simp [sessionHours]
    | cons n r =>
      simp only [sessionHours, List.tail_cons, List.zip_cons_cons, List.map_cons,
        List.sum_cons]
      rw [ih]
      rfl

/-- C3 (amended): for every configuration and every ascending sequence
of at least two timestamps, `estimate_hours` returns the spec's value
round(10.0 + sum of per-window contributions) *saturated into the u32
range*, i.e. `min` of that value and `2^32 - 1` (the `as u32` cast of
the rounded f64 saturates). -/
theorem estimate_hours_formula (args : Args) (times : List Time) (h2 : 2 ≤ times.length)
    (ha : ascending times) :
    estimate_hours args times = min (specEstimate args times).toNat (2 ^ 32 - 1) := by
  rw [estimate_hours, if_neg (by omega), u32cast, specEstimate, ← sessionHours_eq_spec_sum]

theorem estimate_hours_formula_witness :
    (2 ≤ exTimes.length ∧ ascending exTimes) ∧
      estimate_hours exArgs exTimes = min (specEstimate exArgs exTimes).toNat (2 ^ 32 - 1) :=
  ⟨⟨by decide, by decide⟩, estimate_hours_formula exArgs exTimes (by decide) (by decide)⟩

set_option maxRecDepth 8000 in
/-- C3 counterexample: on 62 ascending timestamps whose 61 session
boundaries each add `u32::MAX` minutes, the unsaturated spec formula
exceeds the `u32` range, so `estimate_hours` (which saturates at
`2^32 - 1`) differs from it. -/
theorem estimate_hours_formula_cex :
    2 ≤ cexTimes.length ∧ ascending cexTimes ∧
      estimate_hours cexArgs cexTimes ≠ (specEstimate cexArgs cexTimes).toNat := by
  refine ⟨by decide, by decide, ?_⟩
  rw [specEstimate, ← sessionHours_eq_spec_sum, estimate_hours, if_neg (by decide)]
  have hs : sessionHours cexArgs cexTimes = 61 * ((4294967295 : ℚ) / 60) := by
    norm_num [cexTimes, cexArgs, sessionHours]
  rw [hs]
  norm_num [u32cast, f64round]
  decide

/-! ## Post-processing and the author map -/

theorem lookupA_map_sort (a : String) :
    ∀ m : List (String × List Time),
      lookupA a (m.map (fun p => (p.1, List.insertionSort timeLe p.2)))
        = (lookupA a m).map (List.insertionSort timeLe) := by
  intro m
  induction m with
  | nil => rfl
  | cons p rest ih =>
    obtain ⟨b, ts⟩ := p
    by_cases hb : b = a
    · simp [lookupA, hb]
    · simp [lookupA, hb, ih]

/-- C8: after `get_commit_times_by_author` returns, every author's
timestamp sequence is sorted ascending by absolute seconds value (ties
between equal-seconds timestamps are resolved by the derived
lexicographic order and the stable sort, deterministically). -/
theorem author_times_sorted (args : Args) (repo : Repo) (heads : List Nat) (fuel : Nat)
    (a : String) (l : List Time)
    (h : lookupA a (get_commit_times_by_author args repo heads fuel) = some l) :
    l.Sorted (fun x y : Time => x.seconds ≤ y.seconds) := by
  rw [get_commit_times_by_author, lookupA_map_sort] at h
  obtain ⟨ts, hts, rfl⟩ := Option.map_eq_some'.mp h
  have hs : List.Sorted timeLe (List.insertionSort timeLe ts) :=
    List.sorted_insertionSort timeLe ts
  refine hs.imp ?_
  intro x y hxy
  have hxy' : x.seconds < y.seconds ∨ (x.seconds = y.seconds ∧ x.offset ≤ y.offset) := hxy
  rcases hxy' with h1 | ⟨h2, _⟩
  · exact le_of_lt h1
  · exact le_of_eq h2

theorem author_times_sorted_witness :
    lookupA "a" (get_commit_times_by_author exArgs repo0 [0] 10)
        = some [⟨50, 0⟩, ⟨100, 0⟩] ∧
      List.Sorted (fun x y : Time => x.seconds ≤ y.seconds) [⟨50, 0⟩, ⟨100, 0⟩] :=
  ⟨by decide, author_times_sorted exArgs repo0 [0] 10 "a" [⟨50, 0⟩, ⟨100, 0⟩] (by decide)⟩

theorem lookupA_addTime_self (a : String) (t : Time) :
    ∀ m, lookupA a (addTime a t m) = some ((lookupA a m).getD [] ++ [t]) := by
  intro m
  induction m with
  | nil => simp [addTime, lookupA]
  | cons p rest ih =>
    obtain ⟨b, ts⟩ := p
    by_cases hb : b = a
    · simp [addTime, lookupA, hb]
    · simp [addTime, lookupA, hb, ih]

theorem lookupA_addTime_ne (a e : String) (t : Time) (hne : a ≠ e) :
    ∀ m, lookupA a (addTime e t m) = lookupA a m := by
  have hea : ¬e = a := fun h => hne h.symm
  intro m
  induction m with
  | nil => simp [addTime, lookupA, hea]
  | cons p rest ih =>
    obtain ⟨b, ts⟩ := p
    by_cases hbe : b = e
    · subst hbe
      simp [addTime, lookupA, hea]
    · simp [addTime, lookupA, hbe, ih]

theorem exists_cons_of_not_qual {repo : Repo} {mc : Bool} {a : String} {id : Nat}
    {v : List Nat} (hq : qualifies repo mc a id = false) :
    (∃ i ∈ id :: v, qualifies repo mc a i = true)
      ↔ (∃ i ∈ v, qualifies repo mc a i = true) := by
  constructor
  · rintro ⟨i, hi, hqi⟩
    rcases List.mem_cons.mp hi with rfl | hi'
    · rw [hq] at hqi
      cases hqi
    · exact ⟨i, hi', hqi⟩
  · rintro ⟨i, hi, hqi⟩
    exact ⟨i, List.mem_cons_of_mem _ hi, hqi⟩

theorem loop_times_inv (repo : Repo) (mc : Bool) :
    ∀ fuel stack s, timesInv repo mc s → timesInv repo mc (loop repo mc fuel stack s) := by
  intro fuel
  induction fuel with
  | zero => intro _ s h; exact h
  | succ n ih =>
    intro stack s h
    cases stack with
    | nil => exact h
    | cons id rest =>
      cases hr : repo id with
      | none =>
        simp only [loop, hr]
        exact ih rest s h
      | some commit =>
        simp only [loop, hr]
        by_cases hv : id ∈ s.visited
        · rw [if_pos hv]
          exact ih rest s h
        · rw [if_neg hv]
          apply ih
          cases ha : commit.author with
          | none =>
            refine ⟨h.1, fun a => ?_⟩
            show (lookupA a s.times_by_author).isSome = true
              ↔ ∃ i ∈ id :: s.visited, qualifies repo mc a i = true
            rw [exists_cons_of_not_qual (by simp [qualifies, hr, ha])]
            exact h.2 a
          | some et =>
            obtain ⟨email, time⟩ := et
            show timesInv repo mc
              ⟨id :: s.visited,
                if (decide (commit.parents.length ≤ 1) || mc) = true then
                  addTime email time s.times_by_author
                else s.times_by_author⟩
            by_cases hf : (decide (commit.parents.length ≤ 1) || mc) = true
            · rw [if_pos hf]
              constructor
              · intro a l hl
                by_cases hae : a = email
                · subst hae
                  rw [lookupA_addTime_self] at hl
                  have hleq : (lookupA a s.times_by_author).getD [] ++ [time] = l :=
                    Option.some.inj hl
                  subst hleq
                  simp
                · rw [lookupA_addTime_ne a email time hae] at hl
                  exact h.1 a l hl
              · intro a
                by_cases hae : a = email
                · subst hae
                  show (lookupA a (addTime a time s.times_by_author)).isSome = true
                    ↔ ∃ i ∈ id :: s.visited, qualifies repo mc a i = true
                  rw [lookupA_addTime_self]
                  simp only [Option.isSome_some]
                  constructor
                  · intro _
                    exact ⟨id, List.mem_cons_self id s.visited, by simp [qualifies, hr, ha, hf]⟩
                  · intro _
                    trivial
                · show (lookupA a (addTime email time s.times_by_author)).isSome = true
                    ↔ ∃ i ∈ id :: s.visited, qualifies repo mc a i = true
                  rw [lookupA_addTime_ne a email time hae]
                  have hba : (email == a) = false :=
                    beq_eq_false_iff_ne.mpr (fun hh => hae hh.symm)
                  rw [exists_cons_of_not_qual (by simp [qualifies, hr, ha, hba])]
                  exact h.2 a
            · rw [if_neg hf]
              rw [Bool.not_eq_true] at hf
              refine ⟨h.1, fun a => ?_⟩
              show (lookupA a s.times_by_author).isSome = true
                ↔ ∃ i ∈ id :: s.visited, qualifies repo mc a i = true
              rw [exists_cons_of_not_qual (by simp [qualifies, hr, ha, hf])]
              exact h.2 a

theorem run_fold_inv (repo : Repo) (mc : Bool) (fuel : Nat) :
    ∀ heads (s : TState), timesInv repo mc s →
      timesInv repo mc (List.foldl (fun s h => loop repo mc fuel [h] s) s heads) := by
  intro heads
  induction heads with
  | nil => intro s h; exact h
  | cons hd tl ih =>
    intro s h
    exact ih _ (loop_times_inv repo mc fuel [hd] s h)

/-- C10: every timestamp sequence stored in the mapping returned by
`get_commit_times_by_author` is non-empty, and an author key is present
in the mapping exactly when some visited commit resolves, is authored
by that key, and passes the merge filter (so an author all of whose
reachable commits are merge commits is absent entirely under
`merge_commits = false`). -/
theorem author_entries_nonempty_iff (args : Args) (repo : Repo) (heads : List Nat)
    (fuel : Nat) :
    (∀ a l, lookupA a (get_commit_times_by_author args repo heads fuel) = some l → l ≠ []) ∧
    (∀ a, (lookupA a (get_commit_times_by_author args repo heads fuel)).isSome = true ↔
       ∃ id ∈ (run_traversal args.merge_commits repo heads fuel).visited,
         qualifies repo args.merge_commits a id = true) := by
  have base : timesInv repo args.merge_commits ⟨[], []⟩ := by
    constructor
    · intro a l hl
      simp [lookupA] at hl
    · intro a
      simp [lookupA]
  have inv : timesInv repo args.merge_commits
      (run_traversal args.merge_commits repo heads fuel) :=
    run_fold_inv repo args.merge_commits fuel heads ⟨[], []⟩ base
  constructor
  · intro a l hl
    rw [get_commit_times_by_author, lookupA_map_sort] at hl
    obtain ⟨ts, hts, rfl⟩ := Option.map_eq_some'.mp hl
    have hne := inv.1 a ts hts
    intro hnil
    apply hne
    have hlen : (List.insertionSort timeLe ts).length = ts.length :=
      (List.perm_insertionSort timeLe ts).length_eq
    rw [hnil] at hlen
    exact List.length_eq_zero.mp hlen.symm
  · intro a
    have h2 := inv.2 a
    rw [get_commit_times_by_author, lookupA_map_sort]
    cases hx : lookupA a (run_traversal args.merge_commits repo heads fuel).times_by_author with
    | none =>
      rw [hx] at h2
      simpa using h2
    | some ts =>
      rw [hx] at h2
      simpa using h2

theorem author_entries_nonempty_iff_witness :
    lookupA "a" (get_commit_times_by_author exArgs repo0 [0] 10)
        = some [⟨50, 0⟩, ⟨100, 0⟩] ∧ ([⟨50, 0⟩, ⟨100, 0⟩] : List Time) ≠ [] :=
  ⟨by decide,
    (author_entries_nonempty_iff exArgs repo0 [0] 10).1 "a" [⟨50, 0⟩, ⟨100, 0⟩] (by decide)⟩

/-! ## The shallow-clone precondition check in main -/

/-- C4 (code versus claim): `main` tests for the shallow marker at the
relative path `".git/shallow"` — i.e. under the process working
directory, before the arguments are even parsed — and never under
`args.path`.  In a world where the repository named by `--path` carries
the shallow marker but the working directory does not, the program does
not fail: it traverses the shallow snapshot and emits a report line. -/
theorem shallow_path_not_checked :
    bugWorld.shallowMarker bugArgs.path = true ∧
      main_run bugArgs bugWorld 10 = .ok [("a", 1, 0)] :=
  ⟨rfl, rfl⟩

/-- The check `main` does perform: whenever the working directory's
shallow marker is present, the run fails with the descriptive message
before any traversal, and no report lines are produced. -/
theorem shallow_cwd_fatal (args : Args) (w : World) (fuel : Nat)
    (h : w.shallowMarker "." = true) :
    main_run args w fuel
      = .error
        "Cannot analyze shallow copies. Please run `git fetch --unshallow` before continuing." := by
  rw [main_run, if_pos h]

theorem shallow_cwd_fatal_witness :
    (World.mk (fun _ => true) true bugRepo [0]).shallowMarker "." = true ∧
      main_run bugArgs (World.mk (fun _ => true) true bugRepo [0]) 10
        = .error
          "Cannot analyze shallow copies. Please run `git fetch --unshallow` before continuing." :=
  ⟨rfl, shallow_cwd_fatal bugArgs (World.mk (fun _ => true) true bugRepo [0]) 10 rfl⟩
